import Mathlib

/-!
Formal model of the generic YOLO inference pipeline of `imgutils/generic/yolo.py`.

Numeric values computed by the pipeline (box coordinates, scores, thresholds,
scale ratios) are modelled as rationals; machine integers as `ℤ`/`ℕ`.
Arrays become lists; the raw model output tensor of shape
`[4 + num_classes, num_candidates]` is modelled, after the transpose the code
performs, as a list of candidates, each carrying its center-encoded box and its
per-class score list.  The remote registry and the downloader are oracles
passed as parameters; the per-instance caches of `YOLOModel` are an explicit
state record.
-/

namespace YoloSpec

/-- Rounding of `numpy.round` on a scalar: round half to even. -/
def roundHalfEven (q : ℚ) : ℤ :=
  if q - ⌊q⌋ < 1 / 2 then ⌊q⌋
  else if 1 / 2 < q - ⌊q⌋ then ⌊q⌋ + 1
  else if ⌊q⌋ % 2 = 0 then ⌊q⌋ else ⌊q⌋ + 1

/-- Model of `np.clip(q, a_min = lo, a_max = hi)`, that is
`np.minimum(hi, np.maximum(q, lo))`. -/
def npClip (q lo hi : ℚ) : ℚ := min hi (max lo q)

/-- Corner-encoded bounding box `[xmin, ymin, xmax, ymax]`, as handed to
`_yolo_nms`. -/
structure Box where
  x1 : ℚ
  y1 : ℚ
  x2 : ℚ
  y2 : ℚ
deriving DecidableEq, Repr

/-- One column of the raw output tensor: a center-encoded box
`(x, y, w, h)` followed by the per-class scores. -/
structure Candidate where
  x : ℚ
  y : ℚ
  w : ℚ
  h : ℚ
  scores : List ℚ
deriving DecidableEq, Repr

/-- Model of `_yolo_xywh2xyxy` on a single box row. -/
def xywh2xyxy (c : Candidate) : Box :=
  ⟨c.x - c.w / 2, c.y - c.h / 2, c.x + c.w / 2, c.y + c.h / 2⟩

/-- Inclusive-pixel area `(x2 - x1 + 1) * (y2 - y1 + 1)`, as computed by
`_yolo_nms` for `areas`. -/
def areaQ (b : Box) : ℚ := (b.x2 - b.x1 + 1) * (b.y2 - b.y1 + 1)

/-- Intersection area of `_yolo_nms`: clamped inclusive width times clamped
inclusive height. -/
def interQ (a b : Box) : ℚ :=
  max 0 (min a.x2 b.x2 - max a.x1 b.x1 + 1) * max 0 (min a.y2 b.y2 - max a.y1 b.y1 + 1)

/-- Intersection over union of `_yolo_nms`: `inter / (areas[i] + areas[j] - inter)`. -/
def iouQ (a b : Box) : ℚ := interQ a b / (areaQ a + areaQ b - interQ a b)

/-- Indexing `boxes[i]` with an out-of-range default. -/
def getB (boxes : List Box) (i : ℕ) : Box := boxes.getD i ⟨0, 0, 0, 0⟩

/-- Indexing `scores[i]` with an out-of-range default. -/
def getS (scores : List ℚ) (i : ℕ) : ℚ := scores.getD i 0

/-- Insertion step of a stable ascending insertion sort of indices by score,
the sort `np.argsort` performs on the small index arrays involved here. -/
def insertAsc (scores : List ℚ) (i : ℕ) : List ℕ → List ℕ
  | [] => [i]
  | j :: rest =>
    if getS scores i < getS scores j then i :: j :: rest else j :: insertAsc scores i rest

/-- Model of `scores.argsort()`: indices sorted by score ascending, equal
scores kept in original order (stable). -/
def argsortAsc (scores : List ℚ) : List ℕ :=
  (List.range scores.length).foldl (fun acc i => insertAsc scores i acc) []

/-- Model of `scores.argsort()[::-1]`: the reversed stable ascending argsort,
so equal scores appear in reverse original order. -/
def argsortDesc (scores : List ℚ) : List ℕ := (argsortAsc scores).reverse

/-- The suppression loop of `_yolo_nms`: keep the head of the order list and
drop every later candidate whose IoU with it exceeds the threshold. -/
def yoloNmsAux (boxes : List Box) (t : ℚ) : List ℕ → List ℕ
  | [] => []
  | i :: rest =>
    i :: yoloNmsAux boxes t (rest.filter fun j => decide (iouQ (getB boxes i) (getB boxes j) ≤ t))
termination_by l => l.length
decreasing_by exact Nat.lt_succ_of_le (List.length_filter_le _ _)

/-- Model of `_yolo_nms boxes scores thresh`: the list of kept indices. -/
def yoloNms (boxes : List Box) (scores : List ℚ) (t : ℚ) : List ℕ :=
  yoloNmsAux boxes t (argsortDesc scores)

/-- One axis of `_xy_postprocess`: `int(np.clip(v / new_dim * old_dim,
a_min = 0, a_max = old_dim).round())`. -/
def mapCoord (v : ℚ) (newDim oldDim : ℤ) : ℤ :=
  roundHalfEven (npClip (v / (newDim : ℚ) * (oldDim : ℚ)) 0 (oldDim : ℚ))

/-- Model of `_xy_postprocess`: rescale one point from resized-image space to
original-image space, clip to the original dimensions, and round. -/
def xyPostprocess (x y : ℚ) (oldSize newSize : ℤ × ℤ) : ℤ × ℤ :=
  (mapCoord x newSize.1 oldSize.1, mapCoord y newSize.2 oldSize.2)

/-- Maximum of a list of scores, as `np.max` over the class axis. -/
def listMax : List ℚ → ℚ
  | [] => 0
  | a :: rest => rest.foldl max a

/-- Model of `np.argmax`: first index attaining the maximum. -/
def argmaxIdx : List ℚ → ℕ
  | [] => 0
  | a :: rest => if a < listMax rest then argmaxIdx rest + 1 else 0

/-- One detection emitted by `_data_postprocess`:
`((x0, y0, x1, y1), label, confidence)`. -/
structure Detection where
  x0 : ℤ
  y0 : ℤ
  x1 : ℤ
  y1 : ℤ
  label : String
  conf : ℚ
deriving DecidableEq, Repr

/-- Detection built from one kept box and its class scores, as in the final
loop of `_data_postprocess`. -/
def mkDetection (b : Box) (sc : List ℚ) (oldSize newSize : ℤ × ℤ)
    (labels : List String) : Detection :=
  let p0 := xyPostprocess b.x1 b.y1 oldSize newSize
  let p1 := xyPostprocess b.x2 b.y2 oldSize newSize
  let k := argmaxIdx sc
  ⟨p0.1, p0.2, p1.1, p1.2, labels.getD k "", sc.getD k 0⟩

/-- Model of `_data_postprocess`: confidence filtering (strict `>`), early
empty return, box conversion, suppression, and coordinate remapping. -/
def dataPostprocess (output : List Candidate) (confThr iouThr : ℚ)
    (oldSize newSize : ℤ × ℤ) (labels : List String) : List Detection :=
  let survivors := output.filter fun c => decide (confThr < listMax c.scores)
  if survivors.isEmpty then []
  else
    let boxes := survivors.map xywh2xyxy
    let maxScores := survivors.map fun c => listMax c.scores
    let keep := yoloNms boxes maxScores iouThr
    keep.map fun i =>
      mkDetection (getB boxes i) (survivors.getD i ⟨0, 0, 0, 0, []⟩).scores oldSize newSize labels

/-- Model of `_image_preprocess` on the image dimensions: returns
`(old_size, new_size)`; the ratio is applied only when it downscales, then each
dimension is rounded up to a multiple of `align`. -/
def imagePreprocess (w h maxInferSize align : ℤ) : (ℤ × ℤ) × (ℤ × ℤ) :=
  let r : ℚ := (maxInferSize : ℚ) / ((max w h : ℤ) : ℚ)
  let wq : ℚ := if r < 1 then (w : ℚ) * r else (w : ℚ)
  let hq : ℚ := if r < 1 then (h : ℚ) * r else (h : ℚ)
  ((w, h), (⌈wq / (align : ℚ)⌉ * align, ⌈hq / (align : ℚ)⌉ * align))

/-- Failure modes the `YOLOModel` code raises on its own: the unknown-model
`ValueError` of `_check_model_name`. -/
inductive YoloErr where
  | unknownModel
deriving DecidableEq, Repr

/-- Mutable state of a `YOLOModel` instance: the lazily cached variant-name
list `_model_names` and the per-variant handle cache `_models`. -/
structure YoloState (α : Type) where
  modelNames : Option (List String)
  models : List (String × α)
deriving DecidableEq, Repr

/-- Model of the `model_names` property: return the cached list, or query the
remote listing once and cache it.  The boolean records whether the remote
registry was queried. -/
def getModelNames {α : Type} (remote : List String) (s : YoloState α) :
    List String × YoloState α × Bool :=
  match s.modelNames with
  | some ns => (ns, s, false)
  | none => (remote, ⟨some remote, s.models⟩, true)

/-- Model of `_open_model`: serve from the handle cache, otherwise check the
name against `model_names` (raising the unknown-model error on failure) and
download.  The boolean records whether a download happened. -/
def openModel {α : Type} (remote : List String) (fetch : String → α)
    (s : YoloState α) (name : String) :
    Except YoloErr α × YoloState α × Bool :=
  match s.models.lookup name with
  | some handle => (Except.ok handle, s, false)
  | none =>
    let g := getModelNames remote s
    if name ∈ g.1 then
      (Except.ok (fetch name), ⟨g.2.1.modelNames, (name, fetch name) :: g.2.1.models⟩, true)
    else
      (Except.error YoloErr.unknownModel, g.2.1, false)

/-- Model of `YOLOModel.clear`: `self._models.clear()` only. -/
def clearState {α : Type} (s : YoloState α) : YoloState α := ⟨s.modelNames, []⟩

/-- Model of `YOLOModel.predict`: open the model (its handle is the pair of
`max_infer_size` and the label list), preprocess the image dimensions, hand
the oracle raw output of the inference run to `_data_postprocess`.  No
validation of the thresholds is performed anywhere on this path. -/
def predictModel (remote : List String) (fetch : String → ℤ × List String)
    (s : YoloState (ℤ × List String)) (name : String) (w h : ℤ)
    (runOutput : List Candidate) (confThr iouThr : ℚ) :
    Except YoloErr (List Detection) × YoloState (ℤ × List String) :=
  match openModel remote fetch s name with
  | (Except.ok mh, s2, _) =>
    let pre := imagePreprocess w h mh.1 32
    (Except.ok (dataPostprocess runOutput confThr iouThr pre.1 pre.2 mh.2), s2)
  | (Except.error e, s2, _) => (Except.error e, s2)

/-! ### Basic lemmas about the rounding and clipping primitives -/

theorem roundHalfEven_ge_floor (q : ℚ) : ⌊q⌋ ≤ roundHalfEven q := by
  unfold roundHalfEven
  split_ifs <;> omega

theorem roundHalfEven_le_floor_add_one (q : ℚ) : roundHalfEven q ≤ ⌊q⌋ + 1 := by
  unfold roundHalfEven
  split_ifs <;> omega

theorem roundHalfEven_intCast (n : ℤ) : roundHalfEven (n : ℚ) = n := by
  unfold roundHalfEven
  rw [Int.floor_intCast]
  norm_num

theorem roundHalfEven_mono {q r : ℚ} (h : q ≤ r) : roundHalfEven q ≤ roundHalfEven r := by
  rcases lt_or_eq_of_le (Int.floor_mono h) with hf | hf
  · calc roundHalfEven q ≤ ⌊q⌋ + 1 := roundHalfEven_le_floor_add_one q
      _ ≤ ⌊r⌋ := by omega
      _ ≤ roundHalfEven r := roundHalfEven_ge_floor r
  · unfold roundHalfEven
    rw [hf]
    split_ifs <;> first | omega | linarith

theorem roundHalfEven_nonneg {q : ℚ} (h : 0 ≤ q) : 0 ≤ roundHalfEven q := by
  have h0 : (0 : ℤ) ≤ ⌊q⌋ := Int.floor_nonneg.mpr h
  have := roundHalfEven_ge_floor q
  omega

theorem roundHalfEven_le_int {q : ℚ} {n : ℤ} (h : q ≤ (n : ℚ)) : roundHalfEven q ≤ n := by
  have := roundHalfEven_mono h
  rwa [roundHalfEven_intCast] at this

theorem npClip_mono {q r lo hi : ℚ} (h : q ≤ r) : npClip q lo hi ≤ npClip r lo hi :=
  min_le_min le_rfl (max_le_max le_rfl h)

theorem npClip_nonneg {q hi : ℚ} (hhi : 0 ≤ hi) : 0 ≤ npClip q 0 hi :=
  le_min hhi (le_max_left 0 q)

theorem npClip_le_hi (q lo hi : ℚ) : npClip q lo hi ≤ hi :=
  min_le_left hi _

theorem mapCoord_mono {v v' : ℚ} {nd od : ℤ} (hnd : 0 < nd) (hod : 0 ≤ od)
    (h : v ≤ v') : mapCoord v nd od ≤ mapCoord v' nd od := by
  unfold mapCoord
  apply roundHalfEven_mono
  apply npClip_mono
  have hc : (0 : ℚ) < (nd : ℚ) := by exact_mod_cast hnd
  have hdiv : v / (nd : ℚ) ≤ v' / (nd : ℚ) := (div_le_div_iff_of_pos_right hc).mpr h
  exact mul_le_mul_of_nonneg_right hdiv (by exact_mod_cast hod)

theorem mapCoord_nonneg {v : ℚ} {nd od : ℤ} (hod : 0 ≤ od) : 0 ≤ mapCoord v nd od := by
  unfold mapCoord
  exact roundHalfEven_nonneg (npClip_nonneg (by exact_mod_cast hod))

theorem mapCoord_le {v : ℚ} {nd od : ℤ} : mapCoord v nd od ≤ od := by
  unfold mapCoord
  exact roundHalfEven_le_int (npClip_le_hi _ _ _)

/-! ### Structural lemmas about the suppression loop -/

theorem interQ_comm (a b : Box) : interQ a b = interQ b a := by
  unfold interQ
  rw [min_comm a.x2, max_comm a.x1, min_comm a.y2, max_comm a.y1]

theorem iouQ_comm (a b : Box) : iouQ a b = iouQ b a := by
  unfold iouQ
  rw [interQ_comm, add_comm (areaQ a)]

theorem yoloNmsAux_sublist (boxes : List Box) (t : ℚ) :
    ∀ (order : List ℕ), (yoloNmsAux boxes t order).Sublist order
  | [] => by
    rw [yoloNmsAux]
  | i :: rest => by
    rw [yoloNmsAux]
    exact List.Sublist.cons₂ i
      ((yoloNmsAux_sublist boxes t _).trans (List.filter_sublist rest))
termination_by order => order.length
decreasing_by exact Nat.lt_succ_of_le (List.length_filter_le _ _)

theorem yoloNmsAux_pairwise (boxes : List Box) (t : ℚ) :
    ∀ (order : List ℕ),
      (yoloNmsAux boxes t order).Pairwise
        (fun a b => iouQ (getB boxes a) (getB boxes b) ≤ t)
  | [] => by
    rw [yoloNmsAux]
    exact List.Pairwise.nil
  | i :: rest => by
    rw [yoloNmsAux]
    refine List.Pairwise.cons ?_ (yoloNmsAux_pairwise boxes t _)
    intro j hj
    have hj2 := (yoloNmsAux_sublist boxes t _).subset hj
    simpa using (List.mem_filter.mp hj2).2
termination_by order => order.length
decreasing_by exact Nat.lt_succ_of_le (List.length_filter_le _ _)

theorem yoloNmsAux_all_kept (boxes : List Box) (t : ℚ) :
    ∀ (order : List ℕ), order.Nodup →
      (∀ a ∈ order, ∀ b ∈ order, a ≠ b → iouQ (getB boxes a) (getB boxes b) ≤ t) →
      yoloNmsAux boxes t order = order
  | [], _, _ => by
    rw [yoloNmsAux]
  | i :: rest, hnd, hall => by
    rw [yoloNmsAux]
    have hi : i ∉ rest := (List.nodup_cons.mp hnd).1
    have hfil :
        rest.filter (fun j => decide (iouQ (getB boxes i) (getB boxes j) ≤ t)) = rest := by
      apply List.filter_eq_self.mpr
      intro j hj
      simp only [decide_eq_true_eq]
      exact hall i (by simp) j (by simp [hj]) (fun hij => hi (hij ▸ hj))
    rw [hfil, yoloNmsAux_all_kept boxes t rest (List.nodup_cons.mp hnd).2
      (fun a ha b hb hab => hall a (by simp [ha]) b (by simp [hb]) hab)]

theorem yoloNmsAux_drop_justified (boxes : List Box) (t : ℚ) :
    ∀ (order : List ℕ) (j : ℕ), j ∈ order → j ∉ yoloNmsAux boxes t order →
      ∃ i ∈ yoloNmsAux boxes t order, t < iouQ (getB boxes i) (getB boxes j)
  | [], j, hj, _ => absurd hj (List.not_mem_nil j)
  | i :: rest, j, hj, hnj => by
    rw [yoloNmsAux] at hnj ⊢
    rcases List.mem_cons.mp hj with rfl | hj
    · exact absurd (List.mem_cons_self _ _) hnj
    · by_cases hf : j ∈ rest.filter (fun j => decide (iouQ (getB boxes i) (getB boxes j) ≤ t))
      · obtain ⟨i2, hi2, hgt⟩ := yoloNmsAux_drop_justified boxes t _ j hf
          (fun hh => hnj (List.mem_cons_of_mem _ hh))
        exact ⟨i2, List.mem_cons_of_mem _ hi2, hgt⟩
      · have hgt : ¬ iouQ (getB boxes i) (getB boxes j) ≤ t := by
          intro hle
          exact hf (List.mem_filter.mpr ⟨hj, by simpa using hle⟩)
        exact ⟨i, List.mem_cons_self _ _, lt_of_not_le hgt⟩
termination_by order => order.length
decreasing_by exact Nat.lt_succ_of_le (List.length_filter_le _ _)

theorem insertAsc_perm (scores : List ℚ) (i : ℕ) :
    ∀ (l : List ℕ), (insertAsc scores i l).Perm (i :: l)
  | [] => by
    rw [insertAsc]
  | j :: rest => by
    rw [insertAsc]
    split
    · exact List.Perm.refl _
    · exact (List.Perm.cons j (insertAsc_perm scores i rest)).trans (List.Perm.swap i j rest)

theorem foldl_insertAsc_perm (scores : List ℚ) :
    ∀ (l acc : List ℕ),
      (l.foldl (fun acc i => insertAsc scores i acc) acc).Perm (l ++ acc)
  | [], acc => by simp
  | x :: l, acc => by
    simp only [List.foldl_cons]
    refine (foldl_insertAsc_perm scores l (insertAsc scores x acc)).trans ?_
    refine (List.Perm.append_left l (insertAsc_perm scores x acc)).trans ?_
    exact List.perm_middle

theorem argsortAsc_perm (scores : List ℚ) :
    (argsortAsc scores).Perm (List.range scores.length) := by
  unfold argsortAsc
  simpa using foldl_insertAsc_perm scores (List.range scores.length) []

theorem argsortDesc_perm (scores : List ℚ) :
    (argsortDesc scores).Perm (List.range scores.length) :=
  (List.reverse_perm _).trans (argsortAsc_perm scores)

theorem argsortDesc_nodup (scores : List ℚ) : (argsortDesc scores).Nodup :=
  ((argsortDesc_perm scores).nodup_iff).mpr (List.nodup_range _)

theorem yoloNms_nodup (boxes : List Box) (scores : List ℚ) (t : ℚ) :
    (yoloNms boxes scores t).Nodup :=
  (argsortDesc_nodup scores).sublist (yoloNmsAux_sublist boxes t _)

theorem yoloNms_pairwise (boxes : List Box) (scores : List ℚ) (t : ℚ) :
    (yoloNms boxes scores t).Pairwise
      (fun a b => iouQ (getB boxes a) (getB boxes b) ≤ t) :=
  yoloNmsAux_pairwise boxes t _

/-! ### Helper lemmas about scores, filtering and indexing -/

theorem foldl_max_le {l : List ℚ} {a b : ℚ} (ha : a ≤ b) (h : ∀ q ∈ l, q ≤ b) :
    l.foldl max a ≤ b := by
  induction l generalizing a with
  | nil => exact ha
  | cons x xs ih =>
    exact ih (max_le ha (h x (by simp))) (fun q hq => h q (by simp [hq]))

theorem listMax_le {l : List ℚ} {b : ℚ} (hb : 0 ≤ b) (h : ∀ q ∈ l, q ≤ b) :
    listMax l ≤ b := by
  cases l with
  | nil => simpa [listMax] using hb
  | cons x xs =>
    exact foldl_max_le (h x (by simp)) (fun q hq => h q (by simp [hq]))

theorem dataPostprocess_nil_of_low (output : List Candidate) (confThr iouThr : ℚ)
    (oldSize newSize : ℤ × ℤ) (labels : List String)
    (h : ∀ c ∈ output, listMax c.scores ≤ confThr) :
    dataPostprocess output confThr iouThr oldSize newSize labels = [] := by
  unfold dataPostprocess
  have hfil : output.filter (fun c => decide (confThr < listMax c.scores)) = [] := by
    apply List.filter_eq_nil_iff.mpr
    intro c hc
    simpa using not_lt.mpr (h c hc)
  simp [hfil]

theorem getB_wf : ∀ (l : List Box), (∀ b ∈ l, b.x1 ≤ b.x2 ∧ b.y1 ≤ b.y2) → ∀ (i : ℕ),
    (getB l i).x1 ≤ (getB l i).x2 ∧ (getB l i).y1 ≤ (getB l i).y2
  | [], _, i => by simp [getB]
  | b :: l, h, 0 => by simpa [getB] using h b (by simp)
  | b :: l, h, i + 1 => by
    simpa [getB] using getB_wf l (fun b2 hb2 => h b2 (by simp [hb2])) i

theorem xywh2xyxy_wf (cands : List Candidate) (hc : ∀ c ∈ cands, 0 ≤ c.w ∧ 0 ≤ c.h) :
    ∀ b ∈ cands.map xywh2xyxy, b.x1 ≤ b.x2 ∧ b.y1 ≤ b.y2 := by
  intro b hb
  obtain ⟨c, hcmem, rfl⟩ := List.mem_map.mp hb
  obtain ⟨hw, hh⟩ := hc c hcmem
  unfold xywh2xyxy
  constructor <;> dsimp <;> linarith

theorem getB_map_getD (boxes : List Box) :
    ∀ (keep : List ℕ) (a : ℕ), a < keep.length →
      getB (keep.map (getB boxes)) a = getB boxes (keep.getD a 0)
  | k :: keep, 0, _ => by simp [getB]
  | k :: keep, a + 1, h => by
    simpa [getB] using getB_map_getD boxes keep a (Nat.lt_of_succ_lt_succ h)

theorem getD_eq_getElem_of_lt {l : List ℕ} {a : ℕ} (d : ℕ) (h : a < l.length) :
    l.getD a d = l[a] := by
  rw [List.getD_eq_getElem?_getD, List.getElem?_eq_getElem h, Option.getD_some]

/-! ### Claim theorems -/

/-- Claim C7: for every raw output in which no candidate's max class score
exceeds conf_threshold, postprocessing returns an empty detection sequence;
the model is a total function, so no exception is possible, and the early
return fires before suppression. -/
theorem claim7_empty_below_threshold (output : List Candidate) (confThr iouThr : ℚ)
    (oldSize newSize : ℤ × ℤ) (labels : List String)
    (h : ∀ c ∈ output, listMax c.scores ≤ confThr) :
    dataPostprocess output confThr iouThr oldSize newSize labels = [] :=
  dataPostprocess_nil_of_low output confThr iouThr oldSize newSize labels h

/-- Witness for claim C7 at a concrete below-threshold output. -/
theorem claim7_empty_below_threshold_witness :
    (∀ c ∈ [Candidate.mk 10 10 20 20 [3/10, 1/10]], listMax c.scores ≤ (1/2 : ℚ)) ∧
    dataPostprocess [Candidate.mk 10 10 20 20 [3/10, 1/10]] (1/2) (1/2) (100, 100) (128, 128)
      ["cat", "dog"] = [] := by
  have hlow : ∀ c ∈ [Candidate.mk 10 10 20 20 [3/10, 1/10]],
      listMax c.scores ≤ (1/2 : ℚ) := by
    intro c hc
    rw [List.mem_singleton] at hc
    subst hc
    norm_num [listMax, max_def]
  exact ⟨hlow, claim7_empty_below_threshold _ _ _ _ _ _ hlow⟩

/-- Claim C6: each output dimension of the preprocessing step is an exact
multiple of align, and when the original max dimension is at least
max_infer_size, neither output dimension exceeds
ceil(max_infer_size/align)*align. -/
theorem claim6_preprocess_aligned (w h m a : ℤ) (hw : 0 < w) (hh : 0 < h)
    (ha : 0 < a) (hm : 0 < m) :
    a ∣ (imagePreprocess w h m a).2.1 ∧ a ∣ (imagePreprocess w h m a).2.2 ∧
    (m ≤ max w h →
      (imagePreprocess w h m a).2.1 ≤ ⌈(m : ℚ) / (a : ℚ)⌉ * a ∧
      (imagePreprocess w h m a).2.2 ≤ ⌈(m : ℚ) / (a : ℚ)⌉ * a) := by
  have hmx : (0 : ℤ) < max w h := lt_max_of_lt_left hw
  have hmxq : (0 : ℚ) < ((max w h : ℤ) : ℚ) := by exact_mod_cast hmx
  have haq : (0 : ℚ) < (a : ℚ) := by exact_mod_cast ha
  have key : ∀ v : ℤ, v ≤ max w h → m ≤ max w h →
      (if (m : ℚ) / ((max w h : ℤ) : ℚ) < 1 then (v : ℚ) * ((m : ℚ) / ((max w h : ℤ) : ℚ))
        else (v : ℚ)) ≤ (m : ℚ) := by
    intro v hvle hmle
    split_ifs with hlt
    · have hr0 : (0 : ℚ) ≤ (m : ℚ) / ((max w h : ℤ) : ℚ) :=
        le_of_lt (div_pos (by exact_mod_cast hm) hmxq)
      calc (v : ℚ) * ((m : ℚ) / ((max w h : ℤ) : ℚ))
          ≤ ((max w h : ℤ) : ℚ) * ((m : ℚ) / ((max w h : ℤ) : ℚ)) :=
            mul_le_mul_of_nonneg_right (by exact_mod_cast hvle) hr0
        _ = (m : ℚ) := by field_simp
    · have h1 : (1 : ℚ) ≤ (m : ℚ) / ((max w h : ℤ) : ℚ) := not_lt.mp hlt
      have h2 : ((max w h : ℤ) : ℚ) ≤ (m : ℚ) := (one_le_div hmxq).mp h1
      exact le_trans (by exact_mod_cast hvle) h2
  simp only [imagePreprocess]
  refine ⟨dvd_mul_left a _, dvd_mul_left a _, ?_⟩
  intro hmle
  constructor
  · apply mul_le_mul_of_nonneg_right _ ha.le
    exact Int.ceil_mono ((div_le_div_iff_of_pos_right haq).mpr (key w (le_max_left w h) hmle))
  · apply mul_le_mul_of_nonneg_right _ ha.le
    exact Int.ceil_mono ((div_le_div_iff_of_pos_right haq).mpr (key h (le_max_right w h) hmle))

/-- Witness for claim C6 at a concrete downscaled image. -/
theorem claim6_preprocess_aligned_witness :
    (32 : ℤ) ∣ (imagePreprocess 2000 800 1216 32).2.1 ∧
    (32 : ℤ) ∣ (imagePreprocess 2000 800 1216 32).2.2 ∧
    (imagePreprocess 2000 800 1216 32).2.1 ≤ ⌈(1216 : ℚ) / (32 : ℚ)⌉ * 32 ∧
    (imagePreprocess 2000 800 1216 32).2.2 ≤ ⌈(1216 : ℚ) / (32 : ℚ)⌉ * 32 := by
  obtain ⟨h1, h2, h3⟩ := claim6_preprocess_aligned 2000 800 1216 32
    (by norm_num) (by norm_num) (by norm_num) (by norm_num)
  obtain ⟨h4, h5⟩ := h3 (le_trans (by norm_num : (1216 : ℤ) ≤ 2000) (le_max_left 2000 800))
  exact ⟨h1, h2, h4, h5⟩

/-- Claim C8: requesting a variant name that is not among the repository's
published variants fails with the unknown-model error and creates no entry in
the per-variant model cache, provided the handle cache has no stale entry for
the name and the cached name list (if any) agrees with the remote listing. -/
theorem claim8_unknown_variant {α : Type} (remote : List String) (fetch : String → α)
    (s : YoloState α) (name : String)
    (h1 : name ∉ remote) (h2 : s.models.lookup name = none)
    (h3 : s.modelNames = none ∨ s.modelNames = some remote) :
    (openModel remote fetch s name).1 = Except.error YoloErr.unknownModel ∧
    (openModel remote fetch s name).2.1.models = s.models := by
  unfold openModel
  rw [h2]
  rcases h3 with h3 | h3 <;> simp [getModelNames, h3, h1]

/-- Witness for claim C8 on a fresh state and an unpublished name. -/
theorem claim8_unknown_variant_witness :
    ("x" ∉ ["m"]) ∧
    (openModel ["m"] (fun _ => (0 : ℕ)) (YoloState.mk none []) "x").1 =
      Except.error YoloErr.unknownModel ∧
    (openModel ["m"] (fun _ => (0 : ℕ)) (YoloState.mk none []) "x").2.1.models = [] := by
  have h1 : "x" ∉ ["m"] := by decide
  obtain ⟨ha, hb⟩ := claim8_unknown_variant ["m"] (fun _ => (0 : ℕ)) (YoloState.mk none [])
    "x" h1 rfl (Or.inl rfl)
  exact ⟨h1, ha, hb⟩

/-- Claim C10: clear() empties the per-variant handle cache but leaves the
cached variant-name list intact: afterwards model_names answers from the cache
without querying the remote registry (whatever that registry now lists), and a
subsequent load of a published variant goes through a download. -/
theorem claim10_clear_frame {α : Type} (remote remote2 : List String) (fetch : String → α)
    (s : YoloState α) (ns : List String) (name : String) (h : s.modelNames = some ns) :
    (clearState s).modelNames = some ns ∧
    (clearState s).models = [] ∧
    getModelNames remote2 (clearState s) = (ns, clearState s, false) ∧
    (name ∈ ns →
      openModel remote fetch (clearState s) name =
        (Except.ok (fetch name), YoloState.mk (some ns) [(name, fetch name)], true)) := by
  refine ⟨by simp [clearState, h], rfl, by simp [getModelNames, clearState, h], ?_⟩
  intro hn
  unfold openModel
  simp [clearState, getModelNames, h, hn, List.lookup]

/-- Witness for claim C10 on a concrete populated state. -/
theorem claim10_clear_frame_witness :
    (clearState (YoloState.mk (some ["m"]) [("m", (5 : ℕ))])).modelNames = some ["m"] ∧
    (clearState (YoloState.mk (some ["m"]) [("m", (5 : ℕ))])).models = [] ∧
    getModelNames ["x"] (clearState (YoloState.mk (some ["m"]) [("m", (5 : ℕ))])) =
      (["m"], clearState (YoloState.mk (some ["m"]) [("m", (5 : ℕ))]), false) ∧
    openModel ["r"] (fun _ => (7 : ℕ)) (clearState (YoloState.mk (some ["m"]) [("m", (5 : ℕ))]))
        "m" = (Except.ok 7, YoloState.mk (some ["m"]) [("m", 7)], true) := by
  obtain ⟨h1, h2, h3, h4⟩ := claim10_clear_frame ["r"] ["x"] (fun _ => (7 : ℕ))
    (YoloState.mk (some ["m"]) [("m", (5 : ℕ))]) ["m"] "m" rfl
  exact ⟨h1, h2, h3, h4 (by decide)⟩

/-- Claim C1: evaluating postprocessing at the documented example input (one
candidate with box (10,10,20,20) and class scores 0.9/0.1, conf_threshold 0.5,
iou_threshold 0.5, original size (100,100), resized size (128,128)) yields one
detection with label index 0 and confidence 0.9, but with box (0,0,16,16),
not the (7,7,15,15) the docstring and the spec state. -/
theorem claim1_docstring_example_diverges :
    dataPostprocess [Candidate.mk 10 10 20 20 [9/10, 1/10]] (1/2) (1/2) (100, 100) (128, 128)
        ["cat", "dog"] = [Detection.mk 0 0 16 16 "cat" (9/10)] ∧
    [Detection.mk 0 0 16 16 "cat" (9/10)] ≠ [Detection.mk 7 7 15 15 "cat" (9/10)] := by
  constructor
  · norm_num [dataPostprocess, listMax, yoloNms, argsortDesc, argsortAsc, insertAsc, yoloNmsAux,
      getB, getS, iouQ, interQ, areaQ, xywh2xyxy, mkDetection, xyPostprocess, mapCoord, npClip,
      roundHalfEven, argmaxIdx, List.range_succ] <;>
      norm_num [Int.fract]
  · simp

/-- Claim C2 counterexample: a predict call whose conf_threshold 3/2 lies
outside [0,1] does not fail at all: it returns an ok empty detection list, so
no InvalidArgument-style validation exists on the predict path. -/
theorem claim2_no_validation_cex :
    (predictModel ["m"] (fun _ => (1216, ["cat"])) (YoloState.mk none []) "m" 100 100
        [Candidate.mk 10 10 20 20 [9/10]] (3/2) (7/10)).1 = Except.ok [] ∧
    ¬ ((3/2 : ℚ) ≤ 1) := by
  constructor
  · norm_num [predictModel, openModel, getModelNames, List.lookup, imagePreprocess,
      dataPostprocess, listMax]
  · norm_num

/-- Claim C2 amended: predict performs no threshold validation; out-of-range
thresholds are accepted and used as-is, so with a resolvable model, a
conf_threshold above 1 and all class scores at most 1, the call succeeds with
an empty detection list instead of failing. -/
theorem claim2_amended_no_validation (remote : List String)
    (fetch : String → ℤ × List String) (s : YoloState (ℤ × List String)) (name : String)
    (w h : ℤ) (runOutput : List Candidate) (confThr iouThr : ℚ) (mh : ℤ × List String)
    (hcache : s.models.lookup name = some mh) (hconf : 1 < confThr)
    (hsc : ∀ c ∈ runOutput, ∀ q ∈ c.scores, q ≤ 1) :
    (predictModel remote fetch s name w h runOutput confThr iouThr).1 = Except.ok [] := by
  have hnil : dataPostprocess runOutput confThr iouThr (imagePreprocess w h mh.1 32).1
      (imagePreprocess w h mh.1 32).2 mh.2 = [] :=
    dataPostprocess_nil_of_low _ _ _ _ _ _
      (fun c hc => le_trans (listMax_le zero_le_one (hsc c hc)) hconf.le)
  simp [predictModel, openModel, hcache, hnil]

/-- Witness for the amended claim C2 on a concrete cached model. -/
theorem claim2_amended_no_validation_witness :
    (predictModel [] (fun _ => (0, [])) (YoloState.mk none [("m", (1216, ["cat"]))]) "m"
        100 100 [Candidate.mk 10 10 20 20 [9/10]] (3/2) (7/10)).1 = Except.ok [] := by
  apply claim2_amended_no_validation [] (fun _ => (0, []))
    (YoloState.mk none [("m", (1216, ["cat"]))]) "m" 100 100
    [Candidate.mk 10 10 20 20 [9/10]] (3/2) (7/10) (1216, ["cat"])
  · simp [List.lookup]
  · norm_num
  · intro c hc q hq
    rw [List.mem_singleton] at hc
    subst hc
    rw [List.mem_singleton] at hq
    subst hq
    norm_num

/-- Claim C3 counterexample: two identical boxes with exactly equal scores;
the suppression keeps index 1 (the later candidate), which suppressed index 0,
the reverse of the claimed first-seen-wins order. -/
theorem claim3_tie_order_cex :
    yoloNms [Box.mk 0 0 10 10, Box.mk 0 0 10 10] [9/10, 9/10] (1/2) = [1] ∧
    ([1] : List ℕ) ≠ [0] := by
  constructor
  · norm_num [yoloNms, argsortDesc, argsortAsc, insertAsc, yoloNmsAux, getB, getS, iouQ,
      interQ, areaQ, List.range_succ, max_def, min_def]
  · simp

/-- Claim C3 amended: with exactly equal max scores the candidates are
processed in reverse order of original index (the stable ascending argsort is
reversed), so for two tied candidates the later one is selected first and
suppresses the earlier one whenever their IoU exceeds the threshold. -/
theorem claim3_amended_tie_reversed (b0 b1 : Box) (s t : ℚ) :
    yoloNms [b0, b1] [s, s] t = if iouQ b1 b0 ≤ t then [1, 0] else [1] := by
  by_cases hio : iouQ b1 b0 ≤ t
  · simp [yoloNms, argsortDesc, argsortAsc, List.range_succ, insertAsc, getS, yoloNmsAux,
      getB, hio]
  · simp [yoloNms, argsortDesc, argsortAsc, List.range_succ, insertAsc, getS, yoloNmsAux,
      getB, hio]

/-- Claim C4: for a pair of boxes whose IoU is exactly the threshold the
lower-scoring box is kept (both survive), and in general a candidate is
dropped only when some kept box has IoU strictly greater than the threshold
with it. -/
theorem claim4_iou_boundary (b0 b1 : Box) (s0 s1 t : ℚ) (boxes : List Box)
    (scores : List ℚ) (j : ℕ) (hs : s1 < s0) (hiou : iouQ b0 b1 = t) :
    yoloNms [b0, b1] [s0, s1] t = [0, 1] ∧
    (j ∈ argsortDesc scores → j ∉ yoloNms boxes scores t →
      ∃ i ∈ yoloNms boxes scores t, t < iouQ (getB boxes i) (getB boxes j)) := by
  constructor
  · simp [yoloNms, argsortDesc, argsortAsc, List.range_succ, insertAsc, getS, yoloNmsAux,
      getB, hs, hiou]
  · exact fun hj hnj => yoloNmsAux_drop_justified boxes t _ j hj hnj

/-- Witness for claim C4: two concrete boxes whose IoU is exactly the
threshold 1/2 are both kept. -/
theorem claim4_iou_boundary_witness :
    ((8 : ℚ)/10 < 9/10) ∧ iouQ (Box.mk 0 0 1 1) (Box.mk 0 0 1 3) = 1/2 ∧
    yoloNms [Box.mk 0 0 1 1, Box.mk 0 0 1 3] [9/10, 8/10] (1/2) = [0, 1] := by
  refine ⟨by norm_num, by norm_num [iouQ, interQ, areaQ, max_def, min_def], ?_⟩
  exact (claim4_iou_boundary (Box.mk 0 0 1 1) (Box.mk 0 0 1 3) (9/10) (8/10) (1/2) [] [] 0
    (by norm_num) (by norm_num [iouQ, interQ, areaQ, max_def, min_def])).1

/-- Claim C5 counterexample: a raw candidate with negative encoded width
produces a detection with x0 = 16 greater than x1 = 0, refuting the claimed
x0 ≤ x1 invariant for arbitrary raw outputs. -/
theorem claim5_invariant_cex :
    ¬ (∀ d ∈ dataPostprocess [Candidate.mk 10 10 (-20) 20 [9/10, 1/10]] (1/2) (1/2)
          (100, 100) (128, 128) ["cat", "dog"], d.x0 ≤ d.x1 ∧ d.y0 ≤ d.y1) := by
  have heval : dataPostprocess [Candidate.mk 10 10 (-20) 20 [9/10, 1/10]] (1/2) (1/2)
      (100, 100) (128, 128) ["cat", "dog"] = [Detection.mk 16 0 0 16 "cat" (9/10)] := by
    norm_num [dataPostprocess, listMax, yoloNms, argsortDesc, argsortAsc, insertAsc, yoloNmsAux,
      getB, getS, iouQ, interQ, areaQ, xywh2xyxy, mkDetection, xyPostprocess, mapCoord, npClip,
      roundHalfEven, argmaxIdx, List.range_succ] <;>
      norm_num [Int.fract]
  rw [heval]
  intro hall
  have hcon := (hall (Detection.mk 16 0 0 16 "cat" (9/10)) (by simp)).1
  simp at hcon

/-- Claim C5 amended: every detection emitted by postprocessing has integer
coordinates with x0 ≤ x1 and y0 ≤ y1, clipped into [0, original dimension],
provided each raw candidate has nonnegative encoded width and height, the
resized dimensions are positive and the original dimensions nonnegative. -/
theorem claim5_amended_wellformed (output : List Candidate) (confThr iouThr : ℚ)
    (oldSize newSize : ℤ × ℤ) (labels : List String)
    (hc : ∀ c ∈ output, 0 ≤ c.w ∧ 0 ≤ c.h)
    (hnw : 0 < newSize.1) (hnh : 0 < newSize.2)
    (how : 0 ≤ oldSize.1) (hoh : 0 ≤ oldSize.2) :
    ∀ d ∈ dataPostprocess output confThr iouThr oldSize newSize labels,
      d.x0 ≤ d.x1 ∧ d.y0 ≤ d.y1 ∧
      0 ≤ d.x0 ∧ d.x0 ≤ oldSize.1 ∧ 0 ≤ d.x1 ∧ d.x1 ≤ oldSize.1 ∧
      0 ≤ d.y0 ∧ d.y0 ≤ oldSize.2 ∧ 0 ≤ d.y1 ∧ d.y1 ≤ oldSize.2 := by
  intro d hd
  unfold dataPostprocess at hd
  by_cases hemp : (output.filter fun c => decide (confThr < listMax c.scores)).isEmpty
  · simp [hemp] at hd
  · simp [hemp] at hd
    obtain ⟨i, hi, rfl⟩ := hd
    have hwfb : ∀ b ∈ (output.filter fun c => decide (confThr < listMax c.scores)).map
        xywh2xyxy, b.x1 ≤ b.x2 ∧ b.y1 ≤ b.y2 :=
      xywh2xyxy_wf _ (fun c hc2 => hc c (List.mem_of_mem_filter hc2))
    have hb := getB_wf _ hwfb i
    simp only [mkDetection, xyPostprocess]
    exact ⟨mapCoord_mono hnw how hb.1, mapCoord_mono hnh hoh hb.2,
      mapCoord_nonneg how, mapCoord_le, mapCoord_nonneg how, mapCoord_le,
      mapCoord_nonneg hoh, mapCoord_le, mapCoord_nonneg hoh, mapCoord_le⟩

/-- Witness for the amended claim C5 at a concrete wellformed raw output. -/
theorem claim5_amended_wellformed_witness :
    (∀ c ∈ [Candidate.mk 10 10 20 20 [9/10, 1/10]], 0 ≤ c.w ∧ 0 ≤ c.h) ∧
    (∀ d ∈ dataPostprocess [Candidate.mk 10 10 20 20 [9/10, 1/10]] (1/2) (1/2) (100, 100)
        (128, 128) ["cat", "dog"],
      d.x0 ≤ d.x1 ∧ d.y0 ≤ d.y1 ∧
      0 ≤ d.x0 ∧ d.x0 ≤ 100 ∧ 0 ≤ d.x1 ∧ d.x1 ≤ 100 ∧
      0 ≤ d.y0 ∧ d.y0 ≤ 100 ∧ 0 ≤ d.y1 ∧ d.y1 ≤ 100) := by
  have hcand : ∀ c ∈ [Candidate.mk 10 10 20 20 [9/10, 1/10]], 0 ≤ c.w ∧ 0 ≤ c.h := by
    intro c hcm
    rw [List.mem_singleton] at hcm
    subst hcm
    norm_num
  refine ⟨hcand, ?_⟩
  have hmain := claim5_amended_wellformed [Candidate.mk 10 10 20 20 [9/10, 1/10]] (1/2) (1/2)
    (100, 100) (128, 128) ["cat", "dog"] hcand (by norm_num) (by norm_num)
    (by norm_num) (by norm_num)
  simpa using hmain

/-- Claim C9: greedy suppression is idempotent at the level of kept sets:
rerunning suppression on exactly the boxes and scores it kept returns a
permutation of all their indices, that is, the same kept set. -/
theorem claim9_nms_idempotent (boxes : List Box) (scores : List ℚ) (t : ℚ) :
    (yoloNms ((yoloNms boxes scores t).map (getB boxes))
        ((yoloNms boxes scores t).map (getS scores)) t).Perm
      (List.range (yoloNms boxes scores t).length) := by
  have hpw := yoloNms_pairwise boxes scores t
  set keep := yoloNms boxes scores t with hkeep
  set boxes2 := keep.map (getB boxes) with hboxes2
  set scores2 := keep.map (getS scores) with hscores2
  have hlen : scores2.length = keep.length := by simp [hscores2]
  have horder : (argsortDesc scores2).Perm (List.range keep.length) := by
    rw [← hlen]
    exact argsortDesc_perm scores2
  have hidx : ∀ a b : ℕ, a < keep.length → b < keep.length → a ≠ b →
      iouQ (getB boxes2 a) (getB boxes2 b) ≤ t := by
    intro a b ha hb hab
    have hga : getB boxes2 a = getB boxes (keep.getD a 0) := getB_map_getD boxes keep a ha
    have hgb : getB boxes2 b = getB boxes (keep.getD b 0) := getB_map_getD boxes keep b hb
    rw [hga, hgb, getD_eq_getElem_of_lt 0 ha, getD_eq_getElem_of_lt 0 hb]
    have hpg := List.pairwise_iff_getElem.mp hpw
    rcases Nat.lt_or_ge a b with hlt | hge
    · exact hpg a b ha hb hlt
    · rw [iouQ_comm]
      exact hpg b a hb ha (lt_of_le_of_ne hge (Ne.symm hab))
  have hnodup : (argsortDesc scores2).Nodup := argsortDesc_nodup scores2
  have hall : yoloNmsAux boxes2 t (argsortDesc scores2) = argsortDesc scores2 := by
    apply yoloNmsAux_all_kept boxes2 t _ hnodup
    intro a ha b hb hab
    have ha2 : a < keep.length := by simpa [List.mem_range] using horder.mem_iff.mp ha
    have hb2 : b < keep.length := by simpa [List.mem_range] using horder.mem_iff.mp hb
    exact hidx a b ha2 hb2 hab
  show (yoloNms boxes2 scores2 t).Perm (List.range keep.length)
  unfold yoloNms
  rw [hall]
  exact horder

end YoloSpec
